import Mathlib

/-!
Verification development for the Geekbot document-indexing subsystem
(`storage_utils.py` and `app.py`).

The Python code is shallowly embedded:

* A `Meta` record models the metadata dictionary of a LangChain `Document`
  restricted to the keys the subsystem reads: `"source"` (a possibly missing
  string), `"page"` (an integer, default 0) and `"id"` (set by
  `calculate_chunk_ids`).
* A `Doc` models a document/chunk: page content plus metadata.
* The persistent Chroma collection is modelled as a `List Record`, each record
  holding the Chroma id, the chunk metadata and the chunk text.  `db.get`,
  `db.delete(ids)` and `db.add_documents` become the corresponding list
  operations.
* `str(Path(p).expanduser().resolve())` performs filesystem-dependent path
  canonicalisation, so the functions take the canonicalisation `norm` as an
  explicit parameter; theorems that need concrete paths instantiate `norm`
  with the identity (absolute, symlink-free paths resolve to themselves).
* Python's `f"{n}"` rendering of a natural number is modelled by `natStr`,
  a plain base-10 rendering.
-/

/-- Python `str(n)` for a natural number: base-10 digits, most significant
first.  `natStrAux` carries fuel; fuel `n` is enough for the number `n`. -/
def natStrAux : Nat → Nat → List Char
  | 0, _ => []
  | fuel + 1, n =>
    if n = 0 then [] else natStrAux fuel (n / 10) ++ [Nat.digitChar (n % 10)]

def natStr (n : Nat) : String :=
  if n = 0 then "0" else ⟨natStrAux n n⟩

/-- Metadata dictionary of a document/chunk, restricted to the keys read by
the indexing subsystem (`source`, `page`, `id`). -/
structure Meta where
  source : Option String
  page : Nat
  id : Option String := none
deriving Repr, DecidableEq

/-- A LangChain `Document` (raw document or chunk): text plus metadata. -/
structure Doc where
  text : String
  meta : Meta
deriving Repr, DecidableEq

/-- One record persisted in the Chroma collection: id, metadata, text. -/
structure Record where
  rid : String
  meta : Meta
  text : String
deriving Repr, DecidableEq

/-- `normalize_source_path` applied to an `Optional[str]`: `None` maps to
`""`, otherwise the canonical absolute form `norm p`. -/
def normalize_source_path (norm : String → String) (p : Option String) : String :=
  match p with
  | none => ""
  | some s => norm s

/-- The page key `f"{source}:{page}"` computed by `calculate_chunk_ids`,
where `source` is `chunk.metadata.get("source") or ""`. -/
def chunkKey (c : Doc) : String :=
  (c.meta.source.getD "") ++ ":" ++ natStr c.meta.page

/-- Loop body state of `calculate_chunk_ids`: `last_page_id` (initially
`None`) and `current_chunk_index`. -/
def calcIdsAux : Option String → Nat → List Doc → List Doc
  | _, _, [] => []
  | last, ctr, c :: rest =>
    let key := chunkKey c
    let idx := if some key = last then ctr + 1 else 0
    { c with meta := { c.meta with id := some (key ++ ":" ++ natStr idx) } }
      :: calcIdsAux (some key) idx rest

/-- `calculate_chunk_ids` (storage_utils.py:29-51): assign
`"<source>:<page>:<chunk_index>"` ids, the index resetting whenever the
page key changes from the previous chunk. -/
def calculate_chunk_ids (chunks : List Doc) : List Doc :=
  calcIdsAux none 0 chunks

/-- First loop of `add_to_chroma` (storage_utils.py:67-70): normalize each
chunk's `source` metadata when it is truthy (present and non-empty). -/
def normChunkSources (norm : String → String) (chunks : List Doc) : List Doc :=
  chunks.map fun c =>
    match c.meta.source with
    | some s =>
      if s = "" then c
      else { c with meta := { c.meta with source := some (norm s) } }
    | none => c

/-- `new_chunks` of `add_to_chroma` (storage_utils.py:87): chunks whose id is
not among the ids already present in the store. -/
def newChunksOf (norm : String → String) (chunks : List Doc)
    (store : List Record) : List Doc :=
  (calculate_chunk_ids (normChunkSources norm chunks)).filter fun c =>
    match c.meta.id with
    | some i => ¬ i ∈ store.map (·.rid)
    | none => true

/-- `db.add_documents` for one batch: append one record per chunk, the id
taken from the chunk's `id` metadata. -/
def recordOfChunk (c : Doc) : Record :=
  { rid := c.meta.id.getD "", meta := c.meta, text := c.text }

/-- The slices `new_chunks[i:i+batch_size]` for `i in range(0, len, batch_size)`
(storage_utils.py:92-95), with fuel for termination; fuel `l.length` is enough
when `batch_size > 0`. -/
def sliceBatchesAux (bs : Nat) : Nat → List α → List (List α)
  | 0, _ => []
  | _, [] => []
  | fuel + 1, l => l.take bs :: sliceBatchesAux bs fuel (l.drop bs)

def sliceBatches (bs : Nat) (l : List α) : List (List α) :=
  sliceBatchesAux bs l.length l

/-- `add_to_chroma` (storage_utils.py:62-104): returns the number of newly
added records together with the resulting store contents. -/
def add_to_chroma (norm : String → String) (chunks : List Doc)
    (store : List Record) (batch_size : Nat := 2000) : Nat × List Record :=
  if chunks = [] then (0, store)
  else
    let newChunks := newChunksOf norm chunks store
    if newChunks = [] then (0, store)
    else
      let store' := (sliceBatches batch_size newChunks).foldl
        (fun st b => st ++ b.map recordOfChunk) store
      (newChunks.length, store')

/-- Python `s.startswith(pre)`: `pre`'s characters are a prefix of `s`'s. -/
def strStartsWith (s pre : String) : Bool :=
  pre.data.isPrefixOf s.data

/-- The match test of `delete_from_chroma_by_source`'s collection loop
(storage_utils.py:122-132): skip falsy sources, then exact match for files
and `startswith` for directories. -/
def matchesSource (norm : String → String) (is_dir : Bool)
    (normalized : String) (m : Meta) : Bool :=
  let src := m.source.getD ""
  if src = "" then false
  else
    let srcNorm := norm src
    if is_dir then strStartsWith srcNorm normalized else srcNorm = normalized

/-- `delete_from_chroma_by_source` (storage_utils.py:107-144): collect the
ids of matching records; if none, return `0` without mutating the store,
else delete them and return how many ids were collected.  `is_dir` stands
for the filesystem test `Path(normalized).is_dir()`. -/
def delete_from_chroma_by_source (norm : String → String) (is_dir : Bool)
    (source_path : String) (store : List Record) : Nat × List Record :=
  let normalized := norm source_path
  let idsToDelete :=
    (store.filter fun r => matchesSource norm is_dir normalized r.meta).map (·.rid)
  if idsToDelete = [] then (0, store)
  else (idsToDelete.length, store.filter fun r => ¬ r.rid ∈ idsToDelete)

/-- `sources.get(n, 0)`-style lookup in the insertion-ordered dict modelled
as an association list. -/
def dictGet (d : List (String × Nat)) (k : String) : Option Nat :=
  (d.find? fun kv => kv.1 = k).map (·.2)

/-- `sources[n] = sources.get(n, 0) + 1`: bump the entry in place, or append
a fresh entry with count 1. -/
def dictBump (d : List (String × Nat)) (k : String) : List (String × Nat) :=
  match d with
  | [] => [(k, 1)]
  | (k', v) :: rest =>
    if k' = k then (k', v + 1) :: rest else (k', v) :: dictBump rest k

/-- Loop body of `list_sources_in_chroma` (storage_utils.py:152-156):
skip falsy sources, otherwise bump the count of the normalized source. -/
def listSourcesStep (norm : String → String) (sources : List (String × Nat))
    (r : Record) : List (String × Nat) :=
  match r.meta.source with
  | some s => if s = "" then sources else dictBump sources (norm s)
  | none => sources

/-- `list_sources_in_chroma` (storage_utils.py:147-159): scan all metadata,
counting records grouped by normalized source, skipping falsy sources. -/
def list_sources_in_chroma (norm : String → String)
    (store : List Record) : List (String × Nat) :=
  store.foldl (listSourcesStep norm) []

/-- `index_path` (app.py:148-165).  The external collaborators are passed in:
`path_exists` is `path_obj.exists()`, `is_dir` the directory test used by the
deletion, `docs` the result of `load_docs_for_path(path_obj)` and `split`
the `TEXT_SPLITTER`.  `norm p` plays `str(Path(path).expanduser().resolve())`.
Returns `(len(docs), added)` together with the resulting store. -/
def index_path (norm : String → String) (path_exists is_dir : Bool)
    (docs : List Doc) (split : List Doc → List Doc) (p : String)
    (store : List Record) : (Nat × Nat) × List Record :=
  if path_exists = false then ((0, 0), store)
  else
    let del := delete_from_chroma_by_source norm is_dir (norm p) store
    if docs = [] then ((0, 0), del.2)
    else
      let chunks := split docs
      let add := add_to_chroma norm chunks del.2 2000
      ((docs.length, add.1), add.2)

/-- The pieces of application state touched by `clear_chroma` and
`auto_reset_chroma`: whether the Chroma directory exists, whether the
`.reset_required` marker file exists, and the stored records. -/
structure AppFS where
  chromaExists : Bool
  marker : Bool
  store : List Record
deriving Repr, DecidableEq

/-- `clear_chroma` (app.py:174-197).  `api_fails` models the first
`try`-block raising (records then survive); `rmtree_fails` models
`shutil.rmtree` raising `PermissionError`, in which case the reset marker is
written and physical removal is skipped; a successful `rmtree` removes the
directory with its contents (records and any marker).  The final `mkdir`
recreates the directory. -/
def clear_chroma (api_fails rmtree_fails : Bool) (s : AppFS) : AppFS :=
  let s1 := if api_fails then s else { s with store := [] }
  let s2 :=
    if s1.chromaExists then
      if rmtree_fails then { s1 with marker := true }
      else { chromaExists := false, marker := false, store := [] }
    else s1
  { s2 with chromaExists := true }

/-- `auto_reset_chroma` (app.py:32-46): at startup, if the reset marker
exists, force-remove the Chroma directory (contents included), clear the
marker and recreate an empty directory. -/
def auto_reset_chroma (s : AppFS) : AppFS :=
  if s.marker then { chromaExists := true, marker := false, store := [] }
  else s

/-- A record with a truthy (present and non-empty) `source` metadata value. -/
def hasTruthySource (r : Record) : Bool :=
  match r.meta.source with
  | some s => ¬ s = ""
  | none => false

/-- The key under which a record is counted by `list_sources_in_chroma`:
`none` when its source is falsy, otherwise the normalized source. -/
def sourceKeyOf (norm : String → String) (r : Record) : Option String :=
  match r.meta.source with
  | some s => if s = "" then none else some (norm s)
  | none => none

/-- Number of records of the store counted under normalized source `k`. -/
def sourceCount (norm : String → String) (store : List Record) (k : String) : Nat :=
  (store.filter fun r => sourceKeyOf norm r = some k).length

/-- The sequence of id strings `calculate_chunk_ids` assigns, computed from
the chunks' page keys alone (same loop state: `last_page_id`, counter). -/
def idsSpec : Option String → Nat → List String → List String
  | _, _, [] => []
  | last, ctr, k :: ks =>
    let idx := if some k = last then ctr + 1 else 0
    (k ++ ":" ++ natStr idx) :: idsSpec (some k) idx ks

/-- The page-key sequence of a batch given as runs: each pair is a key and
the run's length. -/
def joinRep (gs : List (String × Nat)) : List String :=
  (gs.map fun g => List.replicate g.2 g.1).flatten

/-! ### Helper lemmas about `delete_from_chroma_by_source` -/

theorem matchesSource_of_falsy (norm : String → String) (is_dir : Bool)
    (normalized : String) (r : Record) (h : hasTruthySource r = false) :
    matchesSource norm is_dir normalized r.meta = false := by
  unfold hasTruthySource at h
  unfold matchesSource
  cases hs : r.meta.source with
  | none => simp [hs, Option.getD]
  | some s =>
    rw [hs] at h
    simp only [decide_not] at h
    have : s = "" := by
      by_contra hne
      simp [hne] at h
    simp [hs, this, Option.getD]

/-- With pairwise-distinct record ids, a record's id is collected for
deletion exactly when the record itself matches. -/
theorem mem_idsToDelete_iff (norm : String → String) (is_dir : Bool)
    (normalized : String) (store : List Record) (r : Record)
    (hnd : (store.map (·.rid)).Nodup) (hr : r ∈ store) :
    r.rid ∈ ((store.filter fun x =>
        matchesSource norm is_dir normalized x.meta).map (·.rid)) ↔
      matchesSource norm is_dir normalized r.meta = true := by
  constructor
  · intro hmem
    rcases List.mem_map.mp hmem with ⟨r', hr', hrid⟩
    rcases List.mem_filter.mp hr' with ⟨hr'store, hmatch⟩
    have : r' = r := List.inj_on_of_nodup_map hnd hr'store hr hrid
    rw [← this]
    exact hmatch
  · intro hmatch
    exact List.mem_map.mpr ⟨r, List.mem_filter.mpr ⟨hr, hmatch⟩, rfl⟩

theorem delete_store_eq_filter (norm : String → String) (is_dir : Bool)
    (p : String) (store : List Record)
    (hnd : (store.map (·.rid)).Nodup) :
    (delete_from_chroma_by_source norm is_dir p store).2 =
      store.filter fun r => ! matchesSource norm is_dir (norm p) r.meta := by
  unfold delete_from_chroma_by_source
  by_cases hids : (store.filter fun r =>
      matchesSource norm is_dir (norm p) r.meta).map (·.rid) = []
  · rw [if_pos hids]
    have hfil : ∀ r ∈ store, ¬ matchesSource norm is_dir (norm p) r.meta = true :=
      List.filter_eq_nil_iff.mp (List.map_eq_nil_iff.mp hids)
    refine (List.filter_eq_self.mpr ?_).symm
    intro r hr
    simp [hfil r hr]
  · rw [if_neg hids]
    refine List.filter_congr ?_
    intro r hr
    have hiff := mem_idsToDelete_iff norm is_dir (norm p) store r hnd hr
    by_cases hm : matchesSource norm is_dir (norm p) r.meta = true
    · simp [hm, hiff.mpr hm]
    · have hnot : r.rid ∉ ((store.filter fun x =>
          matchesSource norm is_dir (norm p) x.meta).map (·.rid)) :=
        fun hcon => hm (hiff.mp hcon)
      simp only [Bool.not_eq_true] at hm
      simp [hnot, hm]

/-- C6: `delete_from_chroma_by_source` returns the number of records removed;
with no matching record it returns 0 and leaves the store unchanged, and on
an empty store it returns 0 rather than failing. -/
theorem delete_source_count_and_empty (norm : String → String) (is_dir : Bool)
    (p : String) (store : List Record)
    (hnd : (store.map (·.rid)).Nodup) :
    (delete_from_chroma_by_source norm is_dir p store).2.length
        + (delete_from_chroma_by_source norm is_dir p store).1 = store.length
    ∧ ((store.filter fun r => matchesSource norm is_dir (norm p) r.meta) = [] →
        delete_from_chroma_by_source norm is_dir p store = (0, store))
    ∧ (store = [] → delete_from_chroma_by_source norm is_dir p store = (0, [])) := by
  refine ⟨?_, ?_, ?_⟩
  · have h2 := delete_store_eq_filter norm is_dir p store hnd
    by_cases hids : (store.filter fun r =>
        matchesSource norm is_dir (norm p) r.meta).map (·.rid) = []
    · unfold delete_from_chroma_by_source
      simp [hids]
    · have h1 : (delete_from_chroma_by_source norm is_dir p store).1 =
          (store.filter fun r =>
            matchesSource norm is_dir (norm p) r.meta).length := by
        unfold delete_from_chroma_by_source
        rw [if_neg hids]
        simp
      rw [h1, h2]
      have hlen := List.length_eq_length_filter_add
        (l := store) (fun r => matchesSource norm is_dir (norm p) r.meta)
      omega
  · intro hfil
    unfold delete_from_chroma_by_source
    simp [hfil]
  · intro h
    subst h
    rfl

/-! ### `list_sources_in_chroma` only sees truthy sources -/

theorem listSourcesStep_of_falsy (norm : String → String)
    (d : List (String × Nat)) (r : Record) (h : hasTruthySource r = false) :
    listSourcesStep norm d r = d := by
  unfold hasTruthySource at h
  unfold listSourcesStep
  cases hs : r.meta.source with
  | none => rfl
  | some s =>
    rw [hs] at h
    simp only [decide_not] at h
    have : s = "" := by
      by_contra hne
      simp [hne] at h
    simp [this]

theorem list_sources_foldl_filter (norm : String → String) :
    ∀ (store : List Record) (d : List (String × Nat)),
    store.foldl (listSourcesStep norm) d =
      (store.filter hasTruthySource).foldl (listSourcesStep norm) d := by
  intro store
  induction store with
  | nil => intro d; rfl
  | cons r rest ih =>
    intro d
    cases htr : hasTruthySource r with
    | false =>
      simp only [List.foldl_cons, List.filter_cons, htr,
        listSourcesStep_of_falsy norm d r htr]
      exact ih d
    | true =>
      simp only [List.foldl_cons, List.filter_cons, htr, if_true]
      exact ih (listSourcesStep norm d r)

/-! ### Counting lemmas for `list_sources_in_chroma` -/

theorem listSourcesStep_eq (norm : String → String)
    (d : List (String × Nat)) (r : Record) :
    listSourcesStep norm d r =
      match sourceKeyOf norm r with
      | none => d
      | some k₀ => dictBump d k₀ := by
  unfold listSourcesStep sourceKeyOf
  cases r.meta.source with
  | none => rfl
  | some s => by_cases hs : s = "" <;> simp [hs]

theorem sourceCount_cons (norm : String → String) (r : Record)
    (rest : List Record) (k : String) :
    sourceCount norm (r :: rest) k =
      (if sourceKeyOf norm r = some k then 1 else 0) + sourceCount norm rest k := by
  unfold sourceCount
  by_cases h : sourceKeyOf norm r = some k <;>
    simp [List.filter_cons, h, Nat.add_comm]

theorem dictGet_dictBump_self (d : List (String × Nat)) (k : String) :
    dictGet (dictBump d k) k = some ((dictGet d k).getD 0 + 1) := by
  induction d with
  | nil => simp [dictBump, dictGet]
  | cons kv rest ih =>
    obtain ⟨k', v⟩ := kv
    by_cases h : k' = k
    · subst h
      simp [dictBump, dictGet]
    · simp only [dictBump, if_neg h]
      simpa [dictGet, h] using ih

theorem dictGet_dictBump_ne (d : List (String × Nat)) (k k' : String)
    (h : k' ≠ k) :
    dictGet (dictBump d k) k' = dictGet d k' := by
  induction d with
  | nil =>
    have hk : k ≠ k' := fun hh => h hh.symm
    simp [dictBump, dictGet, hk]
  | cons kv rest ih =>
    obtain ⟨k₀, v⟩ := kv
    by_cases h0 : k₀ = k
    · subst h0
      have hk : k₀ ≠ k' := fun hh => h hh.symm
      simp [dictBump, dictGet, hk]
    · simp only [dictBump, if_neg h0]
      by_cases h1 : k₀ = k'
      · subst h1
        simp [dictGet]
      · simpa [dictGet, h1] using ih

theorem foldl_listSourcesStep_some (norm : String → String) :
    ∀ (store : List Record) (d : List (String × Nat)) (k : String) (v : Nat),
    dictGet d k = some v →
    dictGet (store.foldl (listSourcesStep norm) d) k =
      some (v + sourceCount norm store k) := by
  intro store
  induction store with
  | nil =>
    intro d k v h
    simpa [sourceCount] using h
  | cons r rest ih =>
    intro d k v h
    rw [List.foldl_cons, listSourcesStep_eq norm d r, sourceCount_cons]
    cases hkey : sourceKeyOf norm r with
    | none =>
      have h0 : (if (none : Option String) = some k then 1 else 0) = 0 := by simp
      rw [h0, Nat.zero_add]
      exact ih d k v h
    | some k₀ =>
      by_cases hk : k₀ = k
      · subst hk
        have h1 : (if (some k₀ : Option String) = some k₀ then 1 else 0) = 1 := by
          simp
        rw [h1]
        have hb : dictGet (dictBump d k₀) k₀ = some (v + 1) := by
          rw [dictGet_dictBump_self, h]
          rfl
        rw [ih (dictBump d k₀) k₀ (v + 1) hb]
        exact congrArg some (by omega)
      · have h0 : (if (some k₀ : Option String) = some k then 1 else 0) = 0 := by
          simp [hk]
        rw [h0, Nat.zero_add]
        have hb : dictGet (dictBump d k₀) k = dictGet d k :=
          dictGet_dictBump_ne d k₀ k (fun hh => hk hh.symm)
        exact ih (dictBump d k₀) k v (hb.trans h)

theorem foldl_listSourcesStep_none (norm : String → String) :
    ∀ (store : List Record) (d : List (String × Nat)) (k : String),
    dictGet d k = none →
    dictGet (store.foldl (listSourcesStep norm) d) k =
      (if sourceCount norm store k = 0 then none
       else some (sourceCount norm store k)) := by
  intro store
  induction store with
  | nil =>
    intro d k h
    simpa [sourceCount] using h
  | cons r rest ih =>
    intro d k h
    rw [List.foldl_cons, listSourcesStep_eq norm d r, sourceCount_cons]
    cases hkey : sourceKeyOf norm r with
    | none =>
      have h0 : (if (none : Option String) = some k then 1 else 0) = 0 := by simp
      rw [h0, Nat.zero_add]
      exact ih d k h
    | some k₀ =>
      by_cases hk : k₀ = k
      · subst hk
        have h1 : (if (some k₀ : Option String) = some k₀ then 1 else 0) = 1 := by
          simp
        rw [h1]
        have hb : dictGet (dictBump d k₀) k₀ = some 1 := by
          rw [dictGet_dictBump_self, h]
          rfl
        rw [foldl_listSourcesStep_some norm rest (dictBump d k₀) k₀ 1 hb]
        have hnz : ¬ (1 + sourceCount norm rest k₀ = 0) := by omega
        rw [if_neg hnz]
      · have h0 : (if (some k₀ : Option String) = some k then 1 else 0) = 0 := by
          simp [hk]
        rw [h0, Nat.zero_add]
        have hb : dictGet (dictBump d k₀) k = dictGet d k :=
          dictGet_dictBump_ne d k₀ k (fun hh => hk hh.symm)
        exact ih (dictBump d k₀) k (hb.trans h)

/-- C7: `list_sources_in_chroma` returns a mapping from normalized source
path to the number of records carrying that source (a key is present exactly
when its count is positive), and on an empty store it returns the empty
mapping. -/
theorem list_sources_counts (norm : String → String) (store : List Record)
    (k : String) :
    dictGet (list_sources_in_chroma norm store) k =
      (if sourceCount norm store k = 0 then none
       else some (sourceCount norm store k))
    ∧ list_sources_in_chroma norm ([] : List Record) = [] :=
  ⟨foldl_listSourcesStep_none norm store [] k rfl, rfl⟩

/-- C10: records whose `source` metadata is missing or empty are invisible
to source-scoped deletion (they always survive) and to source listing
(removing them does not change the mapping). -/
theorem empty_source_records_invisible (norm : String → String)
    (is_dir : Bool) (p : String) (store : List Record) (r : Record)
    (hnd : (store.map (·.rid)).Nodup) (hr : r ∈ store)
    (hsrc : hasTruthySource r = false) :
    r ∈ (delete_from_chroma_by_source norm is_dir p store).2
    ∧ list_sources_in_chroma norm store =
        list_sources_in_chroma norm (store.filter hasTruthySource) := by
  constructor
  · rw [delete_store_eq_filter norm is_dir p store hnd]
    refine List.mem_filter.mpr ⟨hr, ?_⟩
    rw [matchesSource_of_falsy norm is_dir (norm p) r hsrc]
    simp
  · unfold list_sources_in_chroma
    exact list_sources_foldl_filter norm store []

/-- Closed witness for `empty_source_records_invisible` at a concrete store. -/
theorem empty_source_records_invisible_witness :
    (([⟨"x:0:0", ⟨none, 0, some "x:0:0"⟩, "t"⟩,
       ⟨"/a:0:0", ⟨some "/a", 0, some "/a:0:0"⟩, "u"⟩] :
        List Record).map (·.rid)).Nodup
    ∧ (⟨"x:0:0", ⟨none, 0, some "x:0:0"⟩, "t"⟩ : Record) ∈
        ([⟨"x:0:0", ⟨none, 0, some "x:0:0"⟩, "t"⟩,
          ⟨"/a:0:0", ⟨some "/a", 0, some "/a:0:0"⟩, "u"⟩] : List Record)
    ∧ hasTruthySource ⟨"x:0:0", ⟨none, 0, some "x:0:0"⟩, "t"⟩ = false
    ∧ ((⟨"x:0:0", ⟨none, 0, some "x:0:0"⟩, "t"⟩ : Record) ∈
        (delete_from_chroma_by_source (fun s => s) false "/a"
          [⟨"x:0:0", ⟨none, 0, some "x:0:0"⟩, "t"⟩,
           ⟨"/a:0:0", ⟨some "/a", 0, some "/a:0:0"⟩, "u"⟩]).2
      ∧ list_sources_in_chroma (fun s => s)
          [⟨"x:0:0", ⟨none, 0, some "x:0:0"⟩, "t"⟩,
           ⟨"/a:0:0", ⟨some "/a", 0, some "/a:0:0"⟩, "u"⟩] =
        list_sources_in_chroma (fun s => s)
          (([⟨"x:0:0", ⟨none, 0, some "x:0:0"⟩, "t"⟩,
             ⟨"/a:0:0", ⟨some "/a", 0, some "/a:0:0"⟩, "u"⟩] :
              List Record).filter hasTruthySource)) :=
  ⟨by decide, by decide, by decide,
   empty_source_records_invisible (fun s => s) false "/a" _ _
     (by decide) (by decide) (by decide)⟩

/-- Closed witness for `delete_source_count_and_empty` at a concrete store. -/
theorem delete_source_count_and_empty_witness :
    (([⟨"/a:0:0", ⟨some "/a", 0, some "/a:0:0"⟩, "u"⟩,
       ⟨"/b:0:0", ⟨some "/b", 0, some "/b:0:0"⟩, "v"⟩] :
        List Record).map (·.rid)).Nodup
    ∧ ((delete_from_chroma_by_source (fun s => s) false "/a"
          [⟨"/a:0:0", ⟨some "/a", 0, some "/a:0:0"⟩, "u"⟩,
           ⟨"/b:0:0", ⟨some "/b", 0, some "/b:0:0"⟩, "v"⟩]).2.length
        + (delete_from_chroma_by_source (fun s => s) false "/a"
          [⟨"/a:0:0", ⟨some "/a", 0, some "/a:0:0"⟩, "u"⟩,
           ⟨"/b:0:0", ⟨some "/b", 0, some "/b:0:0"⟩, "v"⟩]).1 = 2
      ∧ ((([⟨"/a:0:0", ⟨some "/a", 0, some "/a:0:0"⟩, "u"⟩,
            ⟨"/b:0:0", ⟨some "/b", 0, some "/b:0:0"⟩, "v"⟩] :
             List Record).filter fun r =>
              matchesSource (fun s => s) false ((fun s : String => s) "/a") r.meta) = [] →
          delete_from_chroma_by_source (fun s => s) false "/a"
            [⟨"/a:0:0", ⟨some "/a", 0, some "/a:0:0"⟩, "u"⟩,
             ⟨"/b:0:0", ⟨some "/b", 0, some "/b:0:0"⟩, "v"⟩] =
            (0, [⟨"/a:0:0", ⟨some "/a", 0, some "/a:0:0"⟩, "u"⟩,
                 ⟨"/b:0:0", ⟨some "/b", 0, some "/b:0:0"⟩, "v"⟩]))
      ∧ (([⟨"/a:0:0", ⟨some "/a", 0, some "/a:0:0"⟩, "u"⟩,
           ⟨"/b:0:0", ⟨some "/b", 0, some "/b:0:0"⟩, "v"⟩] : List Record) = [] →
          delete_from_chroma_by_source (fun s => s) false "/a"
            [⟨"/a:0:0", ⟨some "/a", 0, some "/a:0:0"⟩, "u"⟩,
             ⟨"/b:0:0", ⟨some "/b", 0, some "/b:0:0"⟩, "v"⟩] = (0, []))) :=
  ⟨by decide,
   delete_source_count_and_empty (fun s => s) false "/a" _ (by decide)⟩

/-- C2 (failing input): on a concrete store holding one record whose source
is `/data/report2.txt`, deleting the *directory* path `/data/report`
removes that record — the `startswith` prefix match is not anchored at a
path-separator boundary, contradicting the claim. -/
theorem delete_prefix_match_unanchored :
    delete_from_chroma_by_source (fun s => s) true "/data/report"
      [⟨"/data/report2.txt:0:0",
        ⟨some "/data/report2.txt", 0, some "/data/report2.txt:0:0"⟩, "t"⟩] =
      (1, []) := by
  decide

/-! ### Batching lemmas for `add_to_chroma` -/

theorem sliceBatchesAux_join_and_bounds (bs : Nat) (hbs : 0 < bs) :
    ∀ (fuel : Nat) (l : List α), l.length ≤ fuel →
    (sliceBatchesAux bs fuel l).flatten = l
    ∧ ∀ b ∈ sliceBatchesAux bs fuel l, b.length ≤ bs := by
  intro fuel
  induction fuel with
  | zero =>
    intro l hl
    have : l = [] := List.eq_nil_of_length_eq_zero (Nat.le_zero.mp hl)
    subst this
    exact ⟨rfl, by intro b hb; exact absurd hb (List.not_mem_nil b)⟩
  | succ fuel ih =>
    intro l hl
    cases l with
    | nil => exact ⟨rfl, by intro b hb; exact absurd hb (List.not_mem_nil b)⟩
    | cons x xs =>
      have hdrop : ((x :: xs).drop bs).length ≤ fuel := by
        rw [List.length_drop]
        simp only [List.length_cons] at hl ⊢
        omega
      obtain ⟨hjoin, hbound⟩ := ih ((x :: xs).drop bs) hdrop
      constructor
      · show ((x :: xs).take bs :: sliceBatchesAux bs fuel ((x :: xs).drop bs)).flatten
          = x :: xs
        rw [List.flatten_cons, hjoin, List.take_append_drop]
      · intro b hb
        rcases List.mem_cons.mp hb with hb1 | hb2
        · subst hb1
          rw [List.length_take]
          exact Nat.min_le_left bs _
        · exact hbound b hb2

theorem sliceBatches_join (bs : Nat) (hbs : 0 < bs) (l : List α) :
    (sliceBatches bs l).flatten = l :=
  (sliceBatchesAux_join_and_bounds bs hbs l.length l (Nat.le_refl _)).1

theorem sliceBatches_bounds (bs : Nat) (hbs : 0 < bs) (l : List α) :
    ∀ b ∈ sliceBatches bs l, b.length ≤ bs :=
  (sliceBatchesAux_join_and_bounds bs hbs l.length l (Nat.le_refl _)).2

theorem foldl_append_batches (bl : List (List Doc)) (store : List Record) :
    bl.foldl (fun st b => st ++ b.map recordOfChunk) store =
      store ++ bl.flatten.map recordOfChunk := by
  induction bl generalizing store with
  | nil => simp
  | cons b bl ih =>
    simp only [List.foldl_cons, List.flatten_cons, List.map_append, ih,
      List.append_assoc]

/-- Net effect of `add_to_chroma`: its count is the number of new chunks
and its store is the old store with one record per new chunk appended. -/
theorem add_to_chroma_eq (norm : String → String) (chunks : List Doc)
    (store : List Record) (bs : Nat) (hbs : 0 < bs) :
    add_to_chroma norm chunks store bs =
      ((newChunksOf norm chunks store).length,
       store ++ (newChunksOf norm chunks store).map recordOfChunk) := by
  unfold add_to_chroma
  by_cases hc : chunks = []
  · subst hc
    simp [newChunksOf, normChunkSources, calculate_chunk_ids, calcIdsAux]
  · rw [if_neg hc]
    by_cases hn : newChunksOf norm chunks store = []
    · rw [hn] at *
      simp [hn]
    · rw [if_neg hn, foldl_append_batches, sliceBatches_join bs hbs]

/-- C5: `add_to_chroma` adds exactly the candidate chunks whose ids are not
already in the store, appending them (in order, each exactly once) as new
records; the batches have at most `batch_size` elements and concatenate to
the new chunks; the returned count is the number of new records, 0 when the
chunk list is empty. -/
theorem add_to_chroma_adds_new_chunks (norm : String → String)
    (chunks : List Doc) (store : List Record) (bs : Nat) (hbs : 0 < bs) :
    add_to_chroma norm chunks store bs =
      ((newChunksOf norm chunks store).length,
       store ++ (newChunksOf norm chunks store).map recordOfChunk)
    ∧ (∀ b ∈ sliceBatches bs (newChunksOf norm chunks store), b.length ≤ bs)
    ∧ (sliceBatches bs (newChunksOf norm chunks store)).flatten =
        newChunksOf norm chunks store
    ∧ (chunks = [] → add_to_chroma norm chunks store bs = (0, store)) := by
  refine ⟨add_to_chroma_eq norm chunks store bs hbs,
    sliceBatches_bounds bs hbs _, sliceBatches_join bs hbs _, ?_⟩
  intro hc
  subst hc
  rfl

/-- Closed witness for `add_to_chroma_adds_new_chunks`: batch size 1, one
candidate id already present, two genuinely new chunks. -/
theorem add_to_chroma_adds_new_chunks_witness :
    0 < 1
    ∧ (add_to_chroma (fun s => s)
        [⟨"A", ⟨some "/f", 0, none⟩⟩, ⟨"B", ⟨some "/f", 0, none⟩⟩,
         ⟨"C", ⟨some "/f", 1, none⟩⟩]
        [⟨"/f:0:0", ⟨some "/f", 0, some "/f:0:0"⟩, "old"⟩] 1 =
        ((newChunksOf (fun s => s)
            [⟨"A", ⟨some "/f", 0, none⟩⟩, ⟨"B", ⟨some "/f", 0, none⟩⟩,
             ⟨"C", ⟨some "/f", 1, none⟩⟩]
            [⟨"/f:0:0", ⟨some "/f", 0, some "/f:0:0"⟩, "old"⟩]).length,
         [⟨"/f:0:0", ⟨some "/f", 0, some "/f:0:0"⟩, "old"⟩] ++
           (newChunksOf (fun s => s)
              [⟨"A", ⟨some "/f", 0, none⟩⟩, ⟨"B", ⟨some "/f", 0, none⟩⟩,
               ⟨"C", ⟨some "/f", 1, none⟩⟩]
              [⟨"/f:0:0", ⟨some "/f", 0, some "/f:0:0"⟩, "old"⟩]).map
             recordOfChunk)
      ∧ (∀ b ∈ sliceBatches 1
            (newChunksOf (fun s => s)
              [⟨"A", ⟨some "/f", 0, none⟩⟩, ⟨"B", ⟨some "/f", 0, none⟩⟩,
               ⟨"C", ⟨some "/f", 1, none⟩⟩]
              [⟨"/f:0:0", ⟨some "/f", 0, some "/f:0:0"⟩, "old"⟩]),
          b.length ≤ 1)
      ∧ (sliceBatches 1
            (newChunksOf (fun s => s)
              [⟨"A", ⟨some "/f", 0, none⟩⟩, ⟨"B", ⟨some "/f", 0, none⟩⟩,
               ⟨"C", ⟨some "/f", 1, none⟩⟩]
              [⟨"/f:0:0", ⟨some "/f", 0, some "/f:0:0"⟩, "old"⟩])).flatten =
          newChunksOf (fun s => s)
            [⟨"A", ⟨some "/f", 0, none⟩⟩, ⟨"B", ⟨some "/f", 0, none⟩⟩,
             ⟨"C", ⟨some "/f", 1, none⟩⟩]
            [⟨"/f:0:0", ⟨some "/f", 0, some "/f:0:0"⟩, "old"⟩]
      ∧ ([⟨"A", ⟨some "/f", 0, none⟩⟩, ⟨"B", ⟨some "/f", 0, none⟩⟩,
          ⟨"C", ⟨some "/f", 1, none⟩⟩] = ([] : List Doc) →
          add_to_chroma (fun s => s)
            [⟨"A", ⟨some "/f", 0, none⟩⟩, ⟨"B", ⟨some "/f", 0, none⟩⟩,
             ⟨"C", ⟨some "/f", 1, none⟩⟩]
            [⟨"/f:0:0", ⟨some "/f", 0, some "/f:0:0"⟩, "old"⟩] 1 =
            (0, [⟨"/f:0:0", ⟨some "/f", 0, some "/f:0:0"⟩, "old"⟩]))) :=
  ⟨by decide,
   add_to_chroma_adds_new_chunks (fun s => s)
     [⟨"A", ⟨some "/f", 0, none⟩⟩, ⟨"B", ⟨some "/f", 0, none⟩⟩,
      ⟨"C", ⟨some "/f", 1, none⟩⟩]
     [⟨"/f:0:0", ⟨some "/f", 0, some "/f:0:0"⟩, "old"⟩] 1 (by decide)⟩

/-! ### Decomposition of id strings `key ++ ":" ++ natStr n` -/

theorem digitChar_ne_colon (d : Nat) (hd : d < 10) : Nat.digitChar d ≠ ':' := by
  interval_cases d <;> decide

theorem digitChar_inj (a b : Nat) (ha : a < 10) (hb : b < 10)
    (h : Nat.digitChar a = Nat.digitChar b) : a = b := by
  interval_cases a <;> interval_cases b <;> revert h <;> decide

theorem colon_not_mem_natStrAux : ∀ (fuel n : Nat), ':' ∉ natStrAux fuel n := by
  intro fuel
  induction fuel with
  | zero => intro n; simp [natStrAux]
  | succ fuel ih =>
    intro n
    by_cases h : n = 0
    · simp [natStrAux, h]
    · simp only [natStrAux, if_neg h]
      intro hmem
      rcases List.mem_append.mp hmem with h1 | h2
      · exact ih (n / 10) h1
      · have hc : (':' : Char) = Nat.digitChar (n % 10) := by simpa using h2
        exact digitChar_ne_colon (n % 10) (Nat.mod_lt n (by norm_num)) hc.symm

theorem colon_not_mem_natStr (n : Nat) : ':' ∉ (natStr n).data := by
  by_cases h : n = 0
  · subst h; decide
  · simp only [natStr, if_neg h]
    exact colon_not_mem_natStrAux n n

theorem natStrAux_zero (fuel : Nat) : natStrAux fuel 0 = [] := by
  cases fuel <;> simp [natStrAux]

theorem natStrAux_ne_nil (fuel n : Nat) (hn : 0 < n) (hle : n ≤ fuel) :
    natStrAux fuel n ≠ [] := by
  cases fuel with
  | zero => omega
  | succ f =>
    simp only [natStrAux, if_neg (by omega : ¬ n = 0)]
    intro h
    have := congrArg List.length h
    simp at this

theorem natStrAux_inj : ∀ (fuel₁ fuel₂ n m : Nat), 0 < n → n ≤ fuel₁ →
    0 < m → m ≤ fuel₂ → natStrAux fuel₁ n = natStrAux fuel₂ m → n = m := by
  intro fuel₁
  induction fuel₁ with
  | zero => intro fuel₂ n m hn hle _ _ _; omega
  | succ f ih =>
    intro fuel₂ n m hn hle hm hle₂ heq
    cases fuel₂ with
    | zero => omega
    | succ g =>
      simp only [natStrAux, if_neg (by omega : ¬ n = 0),
        if_neg (by omega : ¬ m = 0)] at heq
      have hrev := congrArg List.reverse heq
      simp only [List.reverse_append, List.reverse_cons, List.reverse_nil,
        List.nil_append, List.singleton_append, List.cons.injEq] at hrev
      obtain ⟨hhead, htail⟩ := hrev
      have hmod : n % 10 = m % 10 :=
        digitChar_inj _ _ (Nat.mod_lt n (by norm_num))
          (Nat.mod_lt m (by norm_num)) hhead
      have htail' : natStrAux f (n / 10) = natStrAux g (m / 10) :=
        List.reverse_inj.mp htail
      by_cases hdiv : n / 10 = 0
      · have hnil : natStrAux g (m / 10) = [] := by
          rw [← htail', hdiv, natStrAux_zero]
        have hm10 : m / 10 = 0 := by
          by_contra hne
          exact natStrAux_ne_nil g (m / 10) (Nat.pos_of_ne_zero hne)
            (by omega) hnil
        omega
      · have hm10 : ¬ m / 10 = 0 := by
          intro h0
          have hnil : natStrAux f (n / 10) = [] := by
            rw [htail', h0, natStrAux_zero]
          exact natStrAux_ne_nil f (n / 10) (Nat.pos_of_ne_zero hdiv)
            (by omega) hnil
        have := ih g (n / 10) (m / 10) (Nat.pos_of_ne_zero hdiv) (by omega)
          (Nat.pos_of_ne_zero hm10) (by omega) htail'
        omega

theorem natStr_data_eq_zero (m : Nat) (h : (natStr m).data = ['0']) :
    m = 0 := by
  by_contra hm
  rw [natStr, if_neg hm] at h
  cases hmm : m with
  | zero => exact hm hmm
  | succ g =>
    subst hmm
    simp only [natStrAux, if_neg (by omega : ¬ g + 1 = 0)] at h
    have hlen := congrArg List.length h
    simp only [List.length_append, List.length_cons, List.length_nil] at hlen
    have hnil : natStrAux g ((g + 1) / 10) = [] :=
      List.eq_nil_of_length_eq_zero (by omega)
    rw [hnil, List.nil_append] at h
    have hd : Nat.digitChar ((g + 1) % 10) = '0' := by
      simpa using h
    have h0 : (g + 1) % 10 = 0 :=
      digitChar_inj _ _ (Nat.mod_lt _ (by norm_num)) (by norm_num)
        (by simpa using hd)
    have hdiv : (g + 1) / 10 = 0 := by
      by_contra hne
      exact natStrAux_ne_nil g ((g + 1) / 10) (Nat.pos_of_ne_zero hne)
        (by omega) hnil
    omega

theorem natStr_inj (n m : Nat) (h : natStr n = natStr m) : n = m := by
  have hd : (natStr n).data = (natStr m).data := congrArg String.data h
  by_cases hn : n = 0 <;> by_cases hm : m = 0
  · omega
  · subst hn
    have : (natStr m).data = ['0'] := by
      rw [← hd]; rfl
    exact (natStr_data_eq_zero m this).symm ▸ rfl
  · subst hm
    have : (natStr n).data = ['0'] := by
      rw [hd]; rfl
    exact natStr_data_eq_zero n this
  · rw [natStr, if_neg hn, natStr, if_neg hm] at h
    have : natStrAux n n = natStrAux m m := by
      have := congrArg String.data h
      simpa using this
    exact natStrAux_inj n m n m (Nat.pos_of_ne_zero hn) (Nat.le_refl n)
      (Nat.pos_of_ne_zero hm) (Nat.le_refl m) this

theorem splitAtFirstColon : ∀ (a₁ b₁ a₂ b₂ : List Char), ':' ∉ a₁ → ':' ∉ a₂ →
    a₁ ++ ':' :: b₁ = a₂ ++ ':' :: b₂ → a₁ = a₂ ∧ b₁ = b₂ := by
  intro a₁
  induction a₁ with
  | nil =>
    intro b₁ a₂ b₂ h₁ h₂ heq
    cases a₂ with
    | nil =>
      simp only [List.nil_append, List.cons.injEq] at heq
      exact ⟨rfl, heq.2⟩
    | cons c a₂' =>
      simp only [List.nil_append, List.cons_append, List.cons.injEq] at heq
      exact absurd (List.mem_cons_self c a₂')
        (by rw [← heq.1] at h₂ ⊢; exact fun hmem => h₂ hmem)
  | cons c a₁' ih =>
    intro b₁ a₂ b₂ h₁ h₂ heq
    cases a₂ with
    | nil =>
      simp only [List.cons_append, List.nil_append, List.cons.injEq] at heq
      exact absurd (List.mem_cons_self c a₁')
        (by rw [heq.1] at h₁ ⊢; exact fun hmem => h₁ hmem)
    | cons c' a₂' =>
      simp only [List.cons_append, List.cons.injEq] at heq
      obtain ⟨hc, htl⟩ := heq
      have h₁' : ':' ∉ a₁' := fun hmem => h₁ (List.mem_cons_of_mem c hmem)
      have h₂' : ':' ∉ a₂' := fun hmem => h₂ (List.mem_cons_of_mem c' hmem)
      obtain ⟨ha, hb⟩ := ih b₁ a₂' b₂ h₁' h₂' htl
      exact ⟨by rw [hc, ha], hb⟩

theorem splitAtLastColon (l₁ r₁ l₂ r₂ : List Char) (h₁ : ':' ∉ r₁)
    (h₂ : ':' ∉ r₂) (heq : l₁ ++ ':' :: r₁ = l₂ ++ ':' :: r₂) :
    l₁ = l₂ ∧ r₁ = r₂ := by
  have hrev := congrArg List.reverse heq
  simp only [List.reverse_append, List.reverse_cons, List.append_assoc,
    List.singleton_append] at hrev
  have h₁' : ':' ∉ r₁.reverse := by simpa using h₁
  have h₂' : ':' ∉ r₂.reverse := by simpa using h₂
  obtain ⟨ha, hb⟩ :=
    splitAtFirstColon r₁.reverse l₁.reverse r₂.reverse l₂.reverse h₁' h₂' hrev
  exact ⟨List.reverse_inj.mp hb, List.reverse_inj.mp ha⟩

theorem id_decomp (k₁ k₂ : String) (n₁ n₂ : Nat)
    (h : k₁ ++ ":" ++ natStr n₁ = k₂ ++ ":" ++ natStr n₂) :
    k₁ = k₂ ∧ n₁ = n₂ := by
  have hd := congrArg String.data h
  simp only [String.data_append] at hd
  have hd' : k₁.data ++ ':' :: (natStr n₁).data =
      k₂.data ++ ':' :: (natStr n₂).data := by
    simpa [List.append_assoc] using hd
  obtain ⟨hk, hn⟩ := splitAtLastColon _ _ _ _ (colon_not_mem_natStr n₁)
    (colon_not_mem_natStr n₂) hd'
  exact ⟨String.ext hk, natStr_inj n₁ n₂ (String.ext hn)⟩

/-! ### `calculate_chunk_ids` as a pure function of the page keys -/

theorem calcIdsAux_ids_eq_idsSpec :
    ∀ (chunks : List Doc) (last : Option String) (ctr : Nat),
    (calcIdsAux last ctr chunks).map (fun c => c.meta.id) =
      (idsSpec last ctr (chunks.map chunkKey)).map some := by
  intro chunks
  induction chunks with
  | nil => intro last ctr; rfl
  | cons c rest ih =>
    intro last ctr
    simp only [calcIdsAux, idsSpec, List.map_cons, List.cons.injEq]
    exact ⟨trivial, ih (some (chunkKey c)) _⟩

theorem idsSpec_run (k : String) :
    ∀ (m i : Nat) (rest : List String),
    idsSpec (some k) i (List.replicate m k ++ rest) =
      (List.range m).map (fun j => k ++ ":" ++ natStr (i + 1 + j)) ++
        idsSpec (some k) (i + m) rest := by
  intro m
  induction m with
  | zero => intro i rest; simp [idsSpec]
  | succ m ih =>
    intro i rest
    have hstep : idsSpec (some k) i (List.replicate (m + 1) k ++ rest) =
        (k ++ ":" ++ natStr (i + 1)) ::
          idsSpec (some k) (i + 1) (List.replicate m k ++ rest) := by
      simp [List.replicate_succ, idsSpec]
    rw [hstep, ih (i + 1) rest, List.range_succ_eq_map, List.map_cons,
      List.map_map]
    refine congrArg₂ List.cons ?_ (congrArg₂ HAppend.hAppend ?_ ?_)
    · exact congrArg (fun t => k ++ ":" ++ natStr t) (by omega)
    · refine List.map_congr_left ?_
      intro j hj
      exact congrArg (fun t => k ++ ":" ++ natStr t) (by omega)
    · exact congrArg (fun t => idsSpec (some k) t rest) (by omega)

theorem idsSpec_fresh_run (k : String) (last : Option String) (ctr m : Nat)
    (rest : List String) (hlast : some k ≠ last) :
    idsSpec last ctr (List.replicate (m + 1) k ++ rest) =
      (List.range (m + 1)).map (fun j => k ++ ":" ++ natStr j) ++
        idsSpec (some k) m rest := by
  have hstep : idsSpec last ctr (List.replicate (m + 1) k ++ rest) =
      (k ++ ":" ++ natStr 0) ::
        idsSpec (some k) 0 (List.replicate m k ++ rest) := by
    simp [List.replicate_succ, idsSpec, hlast]
  rw [hstep, idsSpec_run k m 0 rest, List.range_succ_eq_map, List.map_cons,
    List.map_map, List.cons_append]
  refine congrArg₂ List.cons rfl (congrArg₂ HAppend.hAppend ?_ ?_)
  · refine List.map_congr_left ?_
    intro j hj
    exact congrArg (fun t => k ++ ":" ++ natStr t) (by omega)
  · exact congrArg (fun t => idsSpec (some k) t rest) (by omega)

theorem idsSpec_groups_nodup :
    ∀ (gs : List (String × Nat)) (last : Option String) (ctr : Nat),
    (gs.map Prod.fst).Nodup →
    (∀ k ∈ gs.map Prod.fst, some k ≠ last) →
    (idsSpec last ctr (joinRep gs)).Nodup ∧
      ∀ s ∈ idsSpec last ctr (joinRep gs),
        ∃ k n, k ∈ gs.map Prod.fst ∧ s = k ++ ":" ++ natStr n := by
  intro gs
  induction gs with
  | nil =>
    intro last ctr _ _
    exact ⟨List.nodup_nil, by intro s hs; simp [joinRep, idsSpec] at hs⟩
  | cons g gs' ih =>
    obtain ⟨k, m⟩ := g
    intro last ctr hnd hlast
    have hk_not : k ∉ gs'.map Prod.fst := by
      simp only [List.map_cons, List.nodup_cons] at hnd
      exact hnd.1
    have hnd' : (gs'.map Prod.fst).Nodup := by
      simp only [List.map_cons, List.nodup_cons] at hnd
      exact hnd.2
    have hjoin : joinRep ((k, m) :: gs') =
        List.replicate m k ++ joinRep gs' := by
      simp [joinRep]
    cases m with
    | zero =>
      rw [hjoin, List.replicate_zero, List.nil_append]
      have hlast' : ∀ k' ∈ gs'.map Prod.fst, some k' ≠ last :=
        fun k' hk' => hlast k' (by simp [hk'])
      obtain ⟨h1, h2⟩ := ih last ctr hnd' hlast'
      refine ⟨h1, ?_⟩
      intro s hs
      obtain ⟨k', n, hk', hs'⟩ := h2 s hs
      exact ⟨k', n, by simp [hk'], hs'⟩
    | succ m' =>
      rw [hjoin, idsSpec_fresh_run k last ctr m' (joinRep gs')
        (hlast k (by simp))]
      have hlast' : ∀ k' ∈ gs'.map Prod.fst, some k' ≠ some k := by
        intro k' hk' hcon
        exact hk_not ((Option.some.inj hcon) ▸ hk')
      obtain ⟨h1, h2⟩ := ih (some k) m' hnd' hlast'
      constructor
      · refine List.Nodup.append ?_ h1 ?_
        · refine List.Nodup.map_on ?_ (List.nodup_range (m' + 1))
          intro x _ y _ hxy
          exact (id_decomp k k x y hxy).2
        · intro s hs₁ hs₂
          obtain ⟨j, _, hseq⟩ := List.mem_map.mp hs₁
          obtain ⟨k', n, hk', hs'⟩ := h2 s hs₂
          exact hk_not ((id_decomp k k' j n (hseq.trans hs')).1 ▸ hk')
      · intro s hs
        rcases List.mem_append.mp hs with hs₁ | hs₂
        · obtain ⟨j, _, hsem⟩ := List.mem_map.mp hs₁
          exact ⟨k, j, by simp, hsem.symm⟩
        · obtain ⟨k', n, hk', hs'⟩ := h2 s hs₂
          exact ⟨k', n, by simp [hk'], hs'⟩

/-- C3: in a batch whose chunks are grouped so that all chunks sharing a
page key are adjacent (given as runs `groups`, each pair a common page key
and the chunks of the run, with pairwise-distinct keys),
`calculate_chunk_ids` assigns pairwise-distinct identifiers. -/
theorem chunk_ids_unique_in_batch (chunks : List Doc)
    (groups : List (String × List Doc))
    (hsplit : chunks = (groups.map Prod.snd).flatten)
    (hkeys : ∀ g ∈ groups, ∀ c ∈ g.2, chunkKey c = g.1)
    (hnd : (groups.map Prod.fst).Nodup) :
    ((calculate_chunk_ids chunks).map fun c => c.meta.id).Nodup := by
  have hmapkeys : chunks.map chunkKey =
      joinRep (groups.map fun g => (g.1, g.2.length)) := by
    subst hsplit
    rw [List.map_flatten]
    unfold joinRep
    rw [List.map_map, List.map_map]
    congr 1
    refine List.map_congr_left ?_
    intro g hg
    have hrep := List.eq_replicate_of_mem (a := g.1)
      (l := g.2.map chunkKey) (by
        intro b hb
        obtain ⟨c, hc, hbc⟩ := List.mem_map.mp hb
        rw [← hbc]
        exact hkeys g hg c hc)
    simpa using hrep
  rw [calculate_chunk_ids, calcIdsAux_ids_eq_idsSpec, hmapkeys]
  refine List.Nodup.map (Option.some_injective _) ?_
  have hgrp : ((groups.map fun g => (g.1, g.2.length)).map Prod.fst).Nodup := by
    rw [List.map_map]
    exact hnd
  exact (idsSpec_groups_nodup _ none 0 hgrp (by intro k _; simp)).1

/-- Closed witness for `chunk_ids_unique_in_batch` on a concrete batch of
two runs. -/
theorem chunk_ids_unique_in_batch_witness :
    ([⟨"t1", ⟨some "a", 0, none⟩⟩, ⟨"t2", ⟨some "a", 0, none⟩⟩,
      ⟨"t3", ⟨some "b", 0, none⟩⟩] : List Doc) =
      (([("a:0", [⟨"t1", ⟨some "a", 0, none⟩⟩, ⟨"t2", ⟨some "a", 0, none⟩⟩]),
         ("b:0", [⟨"t3", ⟨some "b", 0, none⟩⟩])] :
          List (String × List Doc)).map Prod.snd).flatten
    ∧ (∀ g ∈ ([("a:0", [⟨"t1", ⟨some "a", 0, none⟩⟩,
                        ⟨"t2", ⟨some "a", 0, none⟩⟩]),
               ("b:0", [⟨"t3", ⟨some "b", 0, none⟩⟩])] :
          List (String × List Doc)), ∀ c ∈ g.2, chunkKey c = g.1)
    ∧ (([("a:0", [⟨"t1", ⟨some "a", 0, none⟩⟩, ⟨"t2", ⟨some "a", 0, none⟩⟩]),
        ("b:0", [⟨"t3", ⟨some "b", 0, none⟩⟩])] :
          List (String × List Doc)).map Prod.fst).Nodup
    ∧ ((calculate_chunk_ids
          [⟨"t1", ⟨some "a", 0, none⟩⟩, ⟨"t2", ⟨some "a", 0, none⟩⟩,
           ⟨"t3", ⟨some "b", 0, none⟩⟩]).map fun c => c.meta.id).Nodup :=
  ⟨by decide, by decide, by decide,
   chunk_ids_unique_in_batch
     [⟨"t1", ⟨some "a", 0, none⟩⟩, ⟨"t2", ⟨some "a", 0, none⟩⟩,
      ⟨"t3", ⟨some "b", 0, none⟩⟩]
     [("a:0", [⟨"t1", ⟨some "a", 0, none⟩⟩, ⟨"t2", ⟨some "a", 0, none⟩⟩]),
      ("b:0", [⟨"t3", ⟨some "b", 0, none⟩⟩])]
     (by decide) (by decide) (by decide)⟩

/-- C4: the chunk-index counter resets to 0 whenever the page key changes
from the previous chunk and increments otherwise: for page keys
`[a, a, b, a]` the assigned indices are `[0, 1, 0, 0]`. -/
theorem counter_reset_law (c₁ c₂ c₃ c₄ : Doc)
    (h₂₁ : chunkKey c₂ = chunkKey c₁)
    (h₃₁ : chunkKey c₃ ≠ chunkKey c₁)
    (h₄₃ : chunkKey c₄ ≠ chunkKey c₃)
    (h₄₁ : chunkKey c₄ = chunkKey c₁) :
    (calculate_chunk_ids [c₁, c₂, c₃, c₄]).map (fun c => c.meta.id) =
      [some (chunkKey c₁ ++ ":" ++ natStr 0),
       some (chunkKey c₁ ++ ":" ++ natStr 1),
       some (chunkKey c₃ ++ ":" ++ natStr 0),
       some (chunkKey c₁ ++ ":" ++ natStr 0)] := by
  have h₁₃ : chunkKey c₁ ≠ chunkKey c₃ := fun h => h₃₁ h.symm
  simp [calculate_chunk_ids, calcIdsAux, h₂₁, h₄₁, h₃₁, h₄₃, h₁₃]

/-- Closed witness for `counter_reset_law` on concrete chunks with page
keys `[a:0, a:0, b:0, a:0]`. -/
theorem counter_reset_law_witness :
    (calculate_chunk_ids
        [⟨"p", ⟨some "a", 0, none⟩⟩, ⟨"q", ⟨some "a", 0, none⟩⟩,
         ⟨"r", ⟨some "b", 0, none⟩⟩, ⟨"s", ⟨some "a", 0, none⟩⟩]).map
      (fun c => c.meta.id) =
      [some (chunkKey ⟨"p", ⟨some "a", 0, none⟩⟩ ++ ":" ++ natStr 0),
       some (chunkKey ⟨"p", ⟨some "a", 0, none⟩⟩ ++ ":" ++ natStr 1),
       some (chunkKey ⟨"r", ⟨some "b", 0, none⟩⟩ ++ ":" ++ natStr 0),
       some (chunkKey ⟨"p", ⟨some "a", 0, none⟩⟩ ++ ":" ++ natStr 0)] :=
  counter_reset_law _ _ _ _ (by decide) (by decide) (by decide) (by decide)

/-- C9: when physical deletion of the store directory fails
(`rmtree_fails`), `clear_chroma` writes the reset-pending marker and skips
removal (the records survive when the API cleanup also failed); the next
startup's `auto_reset_chroma`, seeing the marker, force-removes everything,
clears the marker and recreates an empty store directory. -/
theorem clear_chroma_deferred_reset (api_fails : Bool) (s : AppFS)
    (h : s.chromaExists = true) :
    (clear_chroma api_fails true s).marker = true
    ∧ (clear_chroma api_fails true s).chromaExists = true
    ∧ (clear_chroma true true s).store = s.store
    ∧ auto_reset_chroma (clear_chroma api_fails true s) =
        { chromaExists := true, marker := false, store := [] } := by
  cases api_fails <;> simp [clear_chroma, auto_reset_chroma, h]

/-- Closed witness for `clear_chroma_deferred_reset` at a concrete state. -/
theorem clear_chroma_deferred_reset_witness :
    (AppFS.chromaExists ⟨true, false, [⟨"i", ⟨some "/a", 0, some "i"⟩, "t"⟩]⟩) = true
    ∧ ((clear_chroma true true
          ⟨true, false, [⟨"i", ⟨some "/a", 0, some "i"⟩, "t"⟩]⟩).marker = true
      ∧ (clear_chroma true true
          ⟨true, false, [⟨"i", ⟨some "/a", 0, some "i"⟩, "t"⟩]⟩).chromaExists = true
      ∧ (clear_chroma true true
          ⟨true, false, [⟨"i", ⟨some "/a", 0, some "i"⟩, "t"⟩]⟩).store =
          (AppFS.store ⟨true, false, [⟨"i", ⟨some "/a", 0, some "i"⟩, "t"⟩]⟩)
      ∧ auto_reset_chroma (clear_chroma true true
          ⟨true, false, [⟨"i", ⟨some "/a", 0, some "i"⟩, "t"⟩]⟩) =
          { chromaExists := true, marker := false, store := [] }) :=
  ⟨rfl, clear_chroma_deferred_reset true _ rfl⟩

/-! ### Re-indexing a source (`index_path` called twice) -/

theorem delete_result_no_match (norm : String → String) (is_dir : Bool)
    (p : String) (store : List Record) :
    ∀ r ∈ (delete_from_chroma_by_source norm is_dir p store).2,
      matchesSource norm is_dir (norm p) r.meta = false := by
  intro r hr
  unfold delete_from_chroma_by_source at hr
  by_cases hids : (store.filter fun x =>
      matchesSource norm is_dir (norm p) x.meta).map (·.rid) = []
  · rw [if_pos hids] at hr
    have hfil := List.filter_eq_nil_iff.mp (List.map_eq_nil_iff.mp hids)
    have hno := hfil r hr
    revert hno
    cases matchesSource norm is_dir (norm p) r.meta <;> simp
  · rw [if_neg hids] at hr
    obtain ⟨hrs, hdec⟩ := List.mem_filter.mp hr
    by_contra hcon
    have hm : matchesSource norm is_dir (norm p) r.meta = true := by
      revert hcon
      cases matchesSource norm is_dir (norm p) r.meta <;> simp
    have hmem : r.rid ∈ (store.filter fun x =>
        matchesSource norm is_dir (norm p) x.meta).map (·.rid) :=
      List.mem_map.mpr ⟨r, List.mem_filter.mpr ⟨hrs, hm⟩, rfl⟩
    simp only [decide_eq_true_eq] at hdec
    exact hdec hmem

theorem delete_no_match_eq (norm : String → String) (is_dir : Bool)
    (q : String) (store : List Record)
    (hno : ∀ r ∈ store, matchesSource norm is_dir (norm q) r.meta = false) :
    delete_from_chroma_by_source norm is_dir q store = (0, store) := by
  simp only [delete_from_chroma_by_source]
  have hfil : (store.filter fun r =>
      matchesSource norm is_dir (norm q) r.meta) = [] :=
    List.filter_eq_nil_iff.mpr (by intro a ha; simp [hno a ha])
  rw [hfil]
  rfl

theorem calcIdsAux_preserves_source (np : String) :
    ∀ (chunks : List Doc) (last : Option String) (ctr : Nat),
    (∀ c ∈ chunks, c.meta.source = some np) →
    ∀ c ∈ calcIdsAux last ctr chunks, c.meta.source = some np := by
  intro chunks
  induction chunks with
  | nil =>
    intro last ctr _ c hc
    simp [calcIdsAux] at hc
  | cons c0 rest ih =>
    intro last ctr hsrc c hc
    simp only [calcIdsAux] at hc
    rcases List.mem_cons.mp hc with h | h
    · subst h
      exact hsrc c0 (List.mem_cons_self c0 rest)
    · exact ih _ _ (fun x hx => hsrc x (List.mem_cons_of_mem _ hx)) c h

theorem calcIdsAux_assigns_id :
    ∀ (chunks : List Doc) (last : Option String) (ctr : Nat) (c : Doc),
    c ∈ calcIdsAux last ctr chunks → ∃ i, c.meta.id = some i := by
  intro chunks
  induction chunks with
  | nil =>
    intro last ctr c hc
    simp [calcIdsAux] at hc
  | cons c0 rest ih =>
    intro last ctr c hc
    simp only [calcIdsAux] at hc
    rcases List.mem_cons.mp hc with h | h
    · subst h
      exact ⟨_, rfl⟩
    · exact ih _ _ c h

theorem normChunkSources_eq_self (norm : String → String) (np : String)
    (hp : ¬ np = "") (hnorm : norm np = np) :
    ∀ chunks : List Doc, (∀ c ∈ chunks, c.meta.source = some np) →
    normChunkSources norm chunks = chunks := by
  intro chunks
  induction chunks with
  | nil => intro _; rfl
  | cons c rest ih =>
    intro hsrc
    have hs := hsrc c (List.mem_cons_self c rest)
    have hrest := ih (fun x hx => hsrc x (List.mem_cons_of_mem _ hx))
    obtain ⟨text, s, pg, i⟩ := c
    have hs' : s = some np := hs
    subst hs'
    unfold normChunkSources at hrest ⊢
    rw [List.map_cons, hrest]
    simp [hp, hnorm]

/-- Deleting a source from a store consisting of untouched non-matching
records followed by freshly added matching records removes exactly the
fresh records. -/
theorem delete_append_all_new (norm : String → String) (q nq : String)
    (hq : norm q = nq) (store1 recs : List Record)
    (hno : ∀ r ∈ store1, matchesSource norm false nq r.meta = false)
    (hall : ∀ r ∈ recs, matchesSource norm false nq r.meta = true)
    (hfresh : ∀ r ∈ recs, ¬ r.rid ∈ store1.map (·.rid)) :
    delete_from_chroma_by_source norm false q (store1 ++ recs) =
      (recs.length, store1) := by
  simp only [delete_from_chroma_by_source]
  rw [hq]
  have hfil : ((store1 ++ recs).filter fun r =>
      matchesSource norm false nq r.meta) = recs := by
    rw [List.filter_append,
      List.filter_eq_nil_iff.mpr (by intro a ha; simp [hno a ha]),
      List.filter_eq_self.mpr (by intro a ha; simp [hall a ha]),
      List.nil_append]
  rw [hfil]
  by_cases hrecs : recs = []
  · subst hrecs
    simp
  · rw [if_neg (by simpa [List.map_eq_nil_iff] using hrecs)]
    refine congrArg₂ Prod.mk (List.length_map recs _) ?_
    rw [List.filter_append]
    have h1 : (store1.filter fun r =>
        ¬ r.rid ∈ recs.map (·.rid)) = store1 := by
      refine List.filter_eq_self.mpr ?_
      intro r hr
      simp only [decide_eq_true_eq]
      intro hmem
      obtain ⟨rec, hrec, hrid⟩ := List.mem_map.mp hmem
      exact hfresh rec hrec (hrid ▸ List.mem_map.mpr ⟨r, hr, rfl⟩)
    have h2 : (recs.filter fun r => ¬ r.rid ∈ recs.map (·.rid)) = [] := by
      refine List.filter_eq_nil_iff.mpr ?_
      intro r hr
      simp only [decide_eq_true_eq, Decidable.not_not]
      exact List.mem_map.mpr ⟨r, hr, rfl⟩
    rw [h1, h2, List.append_nil]

/-- `index_path` on an existing path: purge the source, then (unless no
documents were loaded) split and add. -/
theorem index_path_true (norm : String → String) (is_dir : Bool)
    (docs : List Doc) (split : List Doc → List Doc) (p : String)
    (store : List Record) :
    index_path norm true is_dir docs split p store =
      if docs = [] then
        ((0, 0), (delete_from_chroma_by_source norm is_dir (norm p) store).2)
      else
        ((docs.length,
          (add_to_chroma norm (split docs)
            (delete_from_chroma_by_source norm is_dir (norm p) store).2
            2000).1),
         (add_to_chroma norm (split docs)
           (delete_from_chroma_by_source norm is_dir (norm p) store).2
           2000).2) := by
  unfold index_path
  rw [if_neg (by simp)]

/-- C1 (amended): re-running `index_path` on an unchanged file-backed
source purges the previous generation and re-adds the same chunks, so the
second call returns the same `(documents, added)` pair as the first — the
added count is the chunk count, not 0 — and leaves the store exactly as
the first call left it (in particular the total record count is
unchanged). -/
theorem index_path_reindex_stable (norm : String → String) (docs : List Doc)
    (split : List Doc → List Doc) (p : String) (store : List Record)
    (hnorm : norm (norm p) = norm p) (hp : ¬ norm p = "")
    (hsrc : ∀ c ∈ split docs, c.meta.source = some (norm p)) :
    index_path norm true false docs split p
        (index_path norm true false docs split p store).2 =
      index_path norm true false docs split p store := by
  rw [index_path_true, index_path_true]
  have hno1 : ∀ r ∈ (delete_from_chroma_by_source norm false (norm p) store).2,
      matchesSource norm false (norm p) r.meta = false := by
    have h := delete_result_no_match norm false (norm p) store
    rw [hnorm] at h
    exact h
  by_cases hdocs : docs = []
  · simp only [if_pos hdocs]
    rw [delete_no_match_eq norm false (norm p)
      (delete_from_chroma_by_source norm false (norm p) store).2
      (by rw [hnorm]; exact hno1)]
  · simp only [if_neg hdocs]
    have hbs : (0 : Nat) < 2000 := by norm_num
    set store1 := (delete_from_chroma_by_source norm false (norm p) store).2
      with hstore1
    have hchunks :
        normChunkSources norm (split docs) = split docs :=
      normChunkSources_eq_self norm (norm p) hp hnorm (split docs) hsrc
    have hnc : newChunksOf norm (split docs) store1 =
        (calculate_chunk_ids (split docs)).filter fun c =>
          match c.meta.id with
          | some i => ¬ i ∈ store1.map (·.rid)
          | none => true := by
      unfold newChunksOf
      rw [hchunks]
    have hall : ∀ r ∈ (newChunksOf norm (split docs) store1).map recordOfChunk,
        matchesSource norm false (norm p) r.meta = true := by
      intro r hr
      obtain ⟨c, hc, hrc⟩ := List.mem_map.mp hr
      rw [hnc] at hc
      have hcmem : c ∈ calculate_chunk_ids (split docs) :=
        List.mem_of_mem_filter hc
      have hcsrc : c.meta.source = some (norm p) :=
        calcIdsAux_preserves_source (norm p) (split docs) none 0 hsrc c hcmem
      rw [← hrc]
      simp [matchesSource, recordOfChunk, hcsrc, hp, hnorm]
    have hfresh : ∀ r ∈ (newChunksOf norm (split docs) store1).map recordOfChunk,
        ¬ r.rid ∈ store1.map (·.rid) := by
      intro r hr
      obtain ⟨c, hc, hrc⟩ := List.mem_map.mp hr
      rw [hnc] at hc
      obtain ⟨hcmem, hpred⟩ := List.mem_filter.mp hc
      obtain ⟨i, hid⟩ := calcIdsAux_assigns_id (split docs) none 0 c hcmem
      rw [hid] at hpred
      simp only [decide_eq_true_eq] at hpred
      rw [← hrc]
      show ¬ (recordOfChunk c).rid ∈ store1.map (·.rid)
      unfold recordOfChunk
      rw [hid]
      exact hpred
    have hdel2 : delete_from_chroma_by_source norm false (norm p)
        (store1 ++ (newChunksOf norm (split docs) store1).map recordOfChunk) =
        (((newChunksOf norm (split docs) store1).map recordOfChunk).length,
         store1) :=
      delete_append_all_new norm (norm p) (norm p) hnorm store1 _ hno1 hall
        hfresh
    rw [add_to_chroma_eq norm (split docs) store1 2000 hbs]
    simp only []
    rw [hdel2]
    simp [add_to_chroma_eq norm (split docs) store1 2000 hbs]

/-- C1 (counterexample): on an empty store, indexing the one-document file
`/f` and then calling `index_path` again with unchanged content returns
`(1, 1)` on the second call — the one chunk is purged and re-added — not
`(1, 0)` as claimed. -/
theorem index_path_second_call_counterexample :
    (index_path (fun s => s) true false [⟨"hello", ⟨some "/f", 0, none⟩⟩]
        (fun l => l) "/f"
        (index_path (fun s => s) true false [⟨"hello", ⟨some "/f", 0, none⟩⟩]
            (fun l => l) "/f" []).2).1 = (1, 1)
    ∧ ¬ (index_path (fun s => s) true false [⟨"hello", ⟨some "/f", 0, none⟩⟩]
        (fun l => l) "/f"
        (index_path (fun s => s) true false [⟨"hello", ⟨some "/f", 0, none⟩⟩]
            (fun l => l) "/f" []).2).1 = (1, 0) := by
  constructor <;> decide

/-- Closed witness for `index_path_reindex_stable` at a concrete store. -/
theorem index_path_reindex_stable_witness :
    ((fun s : String => s) ((fun s : String => s) "/f") =
        (fun s : String => s) "/f")
    ∧ ¬ ((fun s : String => s) "/f" = "")
    ∧ (∀ c ∈ (fun l : List Doc => l) [⟨"hello", ⟨some "/f", 0, none⟩⟩],
        c.meta.source = some ((fun s : String => s) "/f"))
    ∧ index_path (fun s => s) true false [⟨"hello", ⟨some "/f", 0, none⟩⟩]
        (fun l => l) "/f"
        (index_path (fun s => s) true false [⟨"hello", ⟨some "/f", 0, none⟩⟩]
            (fun l => l) "/f" []).2 =
      index_path (fun s => s) true false [⟨"hello", ⟨some "/f", 0, none⟩⟩]
        (fun l => l) "/f" [] :=
  ⟨rfl, by decide, by decide,
   index_path_reindex_stable (fun s => s) [⟨"hello", ⟨some "/f", 0, none⟩⟩]
     (fun l => l) "/f" [] rfl (by decide) (by decide)⟩

/-- C8: for every path that does not exist on the filesystem, `index_path`
returns `(0, 0)` (and leaves the store untouched) rather than raising. -/
theorem index_path_missing_path_returns_zero
    (norm : String → String) (is_dir : Bool) (docs : List Doc)
    (split : List Doc → List Doc) (p : String) (store : List Record) :
    index_path norm false is_dir docs split p store = ((0, 0), store) := by
  simp [index_path]
